import Mathlib

/-! Verification of the core of the `web-serial` terminal application.

The definitions below are a shallow embedding of the TypeScript source:
  * `addLog` embeds the log-store append/merge/evict callback `addLog`
    (App component, `src/unnamed/part_003`, lines 106-147);
  * `disconnect`, `frequencyTick` embed `disconnect` and the 1-second
    frequency timer of the same file;
  * `hexToUint8Array`, `uint8ArrayToHex`, `stringToUint8Array` embed the
    converters of `src/unnamed/part_002`;
  * `sendData` and `handleFileSendEv` embed the two send paths
    (`sendData`, `handleFileSend`) of `src/unnamed/part_003`.

Machine conventions: JS strings are `List Char`, `Uint8Array`s are
`List Nat` whose members are < 256, instants (`Date.now()`) are `Nat`
milliseconds.  The random entry id and the creation timestamp are inputs
of the embedded functions (they are environment-supplied in the source).
-/

/-- The four values of `LogEntry['type']` used by the source
(`'rx' | 'tx' | 'info' | 'error'`). -/
inductive LogType where
  | rx
  | tx
  | info
  | error
deriving DecidableEq, Repr

/-- A log entry exactly as constructed by `addLog`: the object literal at
part_003 lines 137-143 has the properties `id`, `timestamp`, `type`,
`data`, `text` and nothing else.  `byteCount` models the property of the
same name that `Terminal` (part_000 lines 65-66) reads from each entry:
the literal never sets it, so reading it yields `undefined`, modelled as
`Option Nat` with value `none` at construction. -/
structure LogEntry where
  id : String
  timestamp : Nat
  type : LogType
  data : List Nat
  text : List Char
  byteCount : Option Nat
deriving DecidableEq, Repr

/-- The in-place merge of part_003 lines 112-119: the spread
`{...lastLog, data: combinedData, text: lastLog.text + newText}` keeps
every other property (including an absent `byteCount`) unchanged. -/
def mergeEntry (e : LogEntry) (d : List Nat) (t : List Char) : LogEntry :=
  { e with data := e.data ++ d, text := e.text ++ t }

/-- The append-then-evict step of part_003 lines 144-145:
`nextLogs.length > 3000 ? nextLogs.slice(-3000) : nextLogs`
(`slice(-3000)` keeps the last 3000 elements, i.e. drops from the front). -/
def appendNew (prev : List LogEntry) (e : LogEntry) : List LogEntry :=
  let nextLogs := prev ++ [e]
  if 3000 < nextLogs.length then nextLogs.drop (nextLogs.length - 3000) else nextLogs

/-- The `addLog` callback of part_003 lines 106-147, acting on the stored
list.  The merge branch fires exactly when framing (`isAutoLineBreak`) is
off, the appended kind is `rx`, the store is non-empty and its last entry
is `rx`; otherwise a fresh entry (with no `byteCount` property) is
appended and the store evicted down to 3000 entries. -/
def addLog (br : Bool) (ty : LogType) (d : List Nat) (txt : List Char)
    (fid : String) (ts : Nat) (prev : List LogEntry) : List LogEntry :=
  match prev.getLast? with
  | some lastLog =>
      if br = false ∧ ty = LogType.rx ∧ lastLog.type = LogType.rx then
        prev.dropLast ++ [mergeEntry lastLog d txt]
      else
        appendNew prev ⟨fid, ts, ty, d, txt, none⟩
  | none => appendNew prev ⟨fid, ts, ty, d, txt, none⟩

/-- One append operation with all of its environment-supplied inputs. -/
structure LogOp where
  br : Bool
  ty : LogType
  data : List Nat
  text : List Char
  fid : String
  ts : Nat
deriving DecidableEq, Repr

/-- The entry that `addLog` would freshly create for an operation. -/
def newEntryOf (op : LogOp) : LogEntry :=
  ⟨op.fid, op.ts, op.ty, op.data, op.text, none⟩

def applyOp (op : LogOp) (prev : List LogEntry) : List LogEntry :=
  addLog op.br op.ty op.data op.text op.fid op.ts prev

def applyOps (ops : List LogOp) (init : List LogEntry) : List LogEntry :=
  ops.foldl (fun l op => applyOp op l) init

/-- The condition under which `addLog` merges instead of appending. -/
def mergesInto (op : LogOp) (prev : List LogEntry) : Prop :=
  op.br = false ∧ op.ty = LogType.rx ∧
    ∃ e, prev.getLast? = some e ∧ e.type = LogType.rx

instance (op : LogOp) (prev : List LogEntry) : Decidable (mergesInto op prev) := by
  unfold mergesInto
  cases h : prev.getLast? with
  | none => exact isFalse (by rintro ⟨-, -, e, he, -⟩; simp [h] at he)
  | some e =>
      exact decidable_of_iff (op.br = false ∧ op.ty = LogType.rx ∧ e.type = LogType.rx)
        (by constructor
            · rintro ⟨h1, h2, h3⟩; exact ⟨h1, h2, e, rfl, h3⟩
            · rintro ⟨h1, h2, e', he', h3⟩
              rw [Option.some_inj] at he'
              exact ⟨h1, h2, he' ▸ h3⟩)

-- Basic shape lemmas about `addLog`.

theorem addLog_nil (br : Bool) (ty : LogType) (d : List Nat) (txt : List Char)
    (fid : String) (ts : Nat) :
    addLog br ty d txt fid ts [] = [⟨fid, ts, ty, d, txt, none⟩] := rfl

theorem addLog_concat_merge (front : List LogEntry) (e : LogEntry)
    (he : e.type = LogType.rx) (d : List Nat) (txt : List Char)
    (fid : String) (ts : Nat) :
    addLog false LogType.rx d txt fid ts (front ++ [e]) =
      front ++ [mergeEntry e d txt] := by
  unfold addLog
  rw [List.getLast?_concat]
  simp [he]

theorem addLog_concat_nomerge (front : List LogEntry) (e : LogEntry)
    (br : Bool) (ty : LogType) (d : List Nat) (txt : List Char)
    (fid : String) (ts : Nat)
    (h : ¬(br = false ∧ ty = LogType.rx ∧ e.type = LogType.rx)) :
    addLog br ty d txt fid ts (front ++ [e]) =
      appendNew (front ++ [e]) ⟨fid, ts, ty, d, txt, none⟩ := by
  unfold addLog
  rw [List.getLast?_concat]
  simp only [h, if_false]

theorem appendNew_eq_drop (prev : List LogEntry) (e : LogEntry) :
    appendNew prev e = prev.drop (prev.length + 1 - 3000) ++ [e] := by
  unfold appendNew
  simp only [List.length_append, List.length_cons, List.length_nil]
  split
  · next h =>
      rw [List.drop_append_of_le_length (by omega)]
  · next h =>
      have : prev.length + 1 - 3000 = 0 := by omega
      rw [this, List.drop_zero]

theorem appendNew_length (prev : List LogEntry) (e : LogEntry) :
    (appendNew prev e).length = min (prev.length + 1) 3000 := by
  rw [appendNew_eq_drop]
  simp only [List.length_append, List.length_drop, List.length_cons, List.length_nil]
  omega

theorem addLog_merge_sample : (addLog false LogType.rx [2] ['y'] "b" 1
    [⟨"a", 0, LogType.rx, [1], ['x'], none⟩]) =
    [⟨"a", 0, LogType.rx, [1, 2], ['x', 'y'], none⟩] := by decide

/-!  Section: Application state

`AppState` bundles the React state/refs of the App component that the
embedded operations read and write: `portOpen` models `port !== null` and
`port.writable !== null`, the remaining fields are the equally named
states (`isConnected`, `isPaused`, `isAutoLineBreak`, `logs`,
`lineFrequency`) and refs (`keepReading` for `keepReadingRef`,
`newlineCount` for `newlineCountRef`, `lastUpdate` for
`lastFrequencyUpdateRef`). -/

structure AppState where
  portOpen : Bool
  isConnected : Bool
  isPaused : Bool
  keepReading : Bool
  isAutoLineBreak : Bool
  logs : List LogEntry
  newlineCount : Nat
  lineFrequency : Nat
  lastUpdate : Nat
deriving DecidableEq, Repr

/-- The newline count `(newText.match(/\n/g) || []).length` of a text
fragment. -/
def countNewlines (t : List Char) : Nat :=
  t.countP (fun c => c = '\n')

/-- State-level `addLog`: updates the stored list and, exactly when
the appended kind is `rx` (both the merge branch, lines 122-125, and the
append branch, lines 131-135, perform the same guarded increment), adds
the newline count of the new text to `newlineCountRef`. -/
def appAddLog (ty : LogType) (d : List Nat) (txt : List Char)
    (fid : String) (ts : Nat) (st : AppState) : AppState :=
  { st with
    logs := addLog st.isAutoLineBreak ty d txt fid ts st.logs
    newlineCount :=
      st.newlineCount + (if ty = LogType.rx then countNewlines txt else 0) }

/-- The handler `disconnect` (part_003 lines 149-162): stops the read loop, closes the
port, clears the connected and paused flags and logs an info entry.  It
touches neither `newlineCountRef` nor `lineFrequency`. -/
def disconnect (fid : String) (ts : Nat) (st : AppState) : AppState :=
  appAddLog LogType.info [] "串口已关闭".data fid ts
    { st with keepReading := false, portOpen := false,
              isConnected := false, isPaused := false }

/-- One firing of the 1-second frequency timer (part_003 lines 91-104):
if at least 1000 ms have elapsed since the last update, publish the
accumulator as `lineFrequency` and reset it. -/
def frequencyTick (now : Nat) (st : AppState) : AppState :=
  if 1000 ≤ now - st.lastUpdate then
    { st with lineFrequency := st.newlineCount, newlineCount := 0, lastUpdate := now }
  else st

/-!  Section: Converters (`src/unnamed/part_002`) -/

/-- The character class `[0-9A-Fa-f]` of the `cleanHex` regex. -/
def isHexDigitCh (c : Char) : Bool :=
  ('0' ≤ c && c ≤ '9') || ('A' ≤ c && c ≤ 'F') || ('a' ≤ c && c ≤ 'f')

/-- Value of a hex digit character (only used on characters satisfying
`isHexDigitCh`, where it agrees with `parseInt(-, 16)` digit values). -/
def hexCharVal (c : Char) : Nat :=
  if '0' ≤ c && c ≤ '9' then c.toNat - '0'.toNat
  else if 'A' ≤ c && c ≤ 'F' then c.toNat - 'A'.toNat + 10
  else c.toNat - 'a'.toNat + 10

/-- The parse loop of `hexToUint8Array` (part_002 lines 13-15): consume
two hex digits at a time, `parseInt(pair, 16) = 16*hi + lo`. -/
def pairsToBytes : List Char → List Nat
  | hi :: lo :: rest => (16 * hexCharVal hi + hexCharVal lo) :: pairsToBytes rest
  | _ => []

/-- The parser `hexToUint8Array` (part_002 lines 7-17): strip every character that is
not a hex digit, throw (`none`) when an odd number of digits remains,
otherwise parse pairs of digits into bytes. -/
def hexToUint8Array (s : List Char) : Option (List Nat) :=
  if (s.filter isHexDigitCh).length % 2 ≠ 0 then none
  else some (pairsToBytes (s.filter isHexDigitCh))

/-- An uppercase hex digit character, as produced by
`b.toString(16).padStart(2, '0').toUpperCase()`. -/
def hexDigitCh (n : Nat) : Char :=
  if n < 10 then Char.ofNat ('0'.toNat + n) else Char.ofNat ('A'.toNat + n - 10)

/-- The two-digit rendering of one byte (`padStart(2, '0')` pads the
one-digit case; bytes are < 256 so there are at most two digits). -/
def byteToHexPair (b : Nat) : List Char :=
  [hexDigitCh (b / 16), hexDigitCh (b % 16)]

/-- The renderer `uint8ArrayToHex` (part_002 lines 1-5): map each byte to its
two-digit uppercase rendering and join with single spaces. -/
def uint8ArrayToHex : List Nat → List Char
  | [] => []
  | [b] => byteToHexPair b
  | b :: rest => byteToHexPair b ++ ' ' :: uint8ArrayToHex rest

/-- UTF-8 encoding of one code point, as performed by
`TextEncoder.encode` in `stringToUint8Array` (part_002 lines 19-21). -/
def utf8EncodeChar (c : Char) : List Nat :=
  let n := c.toNat
  if n < 128 then [n]
  else if n < 2048 then [192 + n / 64, 128 + n % 64]
  else if n < 65536 then [224 + n / 4096, 128 + (n / 64) % 64, 128 + n % 64]
  else [240 + n / 262144, 128 + (n / 4096) % 64, 128 + (n / 64) % 64, 128 + n % 64]

/-- The encoder `stringToUint8Array` (part_002 lines 19-21). -/
def stringToUint8Array (s : List Char) : List Nat :=
  s.flatMap utf8EncodeChar

theorem hex_fail_sample : hexToUint8Array "FF 1".data = none := by decide

theorem hex_ok_sample : hexToUint8Array "01 02 FF".data = some [1, 2, 255] := by decide

theorem hex_render_sample : uint8ArrayToHex [0, 26, 255] = "00 1A FF".data := by decide

/-!  Section: The text/hex send path (`sendData`, part_003 lines 211-229) -/

/-- The two values of `DisplayMode` that `sendData` distinguishes. -/
inductive DisplayMode where
  | text
  | hex
deriving DecidableEq, Repr

/-- Error message thrown by `hexToUint8Array`. -/
def invalidHexMsg : List Char := "无效的十六进制字符串".data

/-- The send handler `sendData` (part_003 lines 211-229).  Returns the updated state and
the list of writes performed on the transport.
  * `if (!port || !port.writable) return;` — a closed port is a silent
    no-op (nothing logged, nothing written);
  * `if (isPaused) { addLog('error', ...); return; }` — paused logs an
    error entry and writes nothing;
  * hex mode parses the input, a throw is caught and logged as an error
    entry with the thrown message, and nothing is written;
  * on success the encoded bytes are written once and a `tx` entry
    logged. -/
def sendData (fid : String) (ts : Nat) (input : List Char) (mode : DisplayMode)
    (st : AppState) : AppState × List (List Nat) :=
  if st.portOpen = false then (st, [])
  else if st.isPaused = true then
    (appAddLog LogType.error [] "发送失败: 串口已暂停".data fid ts st, [])
  else
    match (match mode with
           | DisplayMode.hex => hexToUint8Array input
           | DisplayMode.text => some (stringToUint8Array input)) with
    | none =>
        (appAddLog LogType.error [] ("发送失败: ".data ++ invalidHexMsg) fid ts st, [])
    | some d => (appAddLog LogType.tx d input fid ts st, [d])

/-!  Section: The file send path (`handleFileSend`, part_003 lines 267-310)

`handleFileSend` is an `async` arrow function created inside the render
of the App component; the identifier `isPaused` inside it denotes the
`const` of that render, so every occurrence of `isPaused` in the body
(the gate at line 271, the in-loop check at line 287 and the completion
check at line 302) reads the one value captured when the invocation
started.  That snapshot is the `pausedSnap : Bool` parameter below; a
later `setIsPaused(true)` produces a new render with a new binding and
is invisible to the running invocation (unlike `readLoop`, which reads
`isPausedRef.current` for exactly this reason, cf. the comment at
part_003 line 69).  `Math.round(x)` on the non-negative rational
`sent/total*100` is modelled exactly (`roundPct`); IEEE double rounding
is below the granularity of this embedding.  A `throttleBytes` of 0
makes the source loop forever (the chunk is empty and `sent` never
advances); the model returns `[]` there and every theorem assumes
`0 < throttleBytes`. -/

/-- Observable events of one `handleFileSend` invocation, in order:
transport writes, progress callbacks, inter-chunk delays, and the log
entries the session appends. -/
inductive FsEvent where
  | write (chunk : List Nat)
  | progress (pct : Nat)
  | delayEv
  | logBlocked
  | logStart
  | logAbort
  | logDone
deriving DecidableEq, Repr

/-- Exact-rational `Math.round((sent / total) * 100)`:
`⌊(100 * sent / total) + 1/2⌋`. -/
def roundPct (sent total : Nat) : Nat :=
  (200 * sent + total) / (2 * total)

/-- The `while (sent < total)` loop of `handleFileSend` (lines 285-300),
acting on the not-yet-sent suffix `rest` of the file
(`chunk = data.slice(sent, sent + throttleBytes)` is `rest.take tb`).
The pause check reads the invocation snapshot `pausedSnap`. -/
def fsLoop (pausedSnap : Bool) (tb tms total : Nat) (sent : Nat)
    (rest : List Nat) : List FsEvent :=
  if h : rest.isEmpty = true ∨ tb = 0 then []
  else if pausedSnap = true then [FsEvent.logAbort]
  else
    FsEvent.write (rest.take tb) ::
    FsEvent.progress (roundPct (sent + (rest.take tb).length) total) ::
    ((if 0 < tms ∧ sent + (rest.take tb).length < total then [FsEvent.delayEv] else []) ++
      fsLoop pausedSnap tb tms total (sent + (rest.take tb).length) (rest.drop tb))
termination_by rest.length
decreasing_by
  simp only [not_or, List.isEmpty_iff] at h
  have h1 : rest ≠ [] := h.1
  have h2 : tb ≠ 0 := h.2
  simp only [List.length_drop]
  have : 0 < rest.length := List.length_pos.mpr h1
  omega

/-- The file-send handler `handleFileSend` (part_003 lines 267-310): gate on the port, gate on
the pause snapshot, then log the start entry, run the chunk loop, and log
the completion entry when the (same) snapshot is not paused. -/
def handleFileSendEv (portOpen pausedSnap : Bool) (data : List Nat)
    (tb tms : Nat) : List FsEvent :=
  if portOpen = false then []
  else if pausedSnap = true then [FsEvent.logBlocked]
  else
    FsEvent.logStart :: (fsLoop pausedSnap tb tms data.length 0 data ++
      (if pausedSnap = false then [FsEvent.logDone] else []))

/-- The chunking `data.slice(sent, sent+tb)` induces on the whole file. -/
def chunksOf (tb : Nat) (l : List Nat) : List (List Nat) :=
  if h : l.isEmpty = true ∨ tb = 0 then []
  else l.take tb :: chunksOf tb (l.drop tb)
termination_by l.length
decreasing_by
  simp only [not_or, List.isEmpty_iff] at h
  simp only [List.length_drop]
  have : 0 < l.length := List.length_pos.mpr h.1
  omega

/-- The event stream the loop emits for a given chunk list: each chunk is
written, then its progress reported, then (strictly between chunks, when
`throttleMs > 0`) one delay. -/
def chunkEvents (tms total : Nat) (sent : Nat) : List (List Nat) → List FsEvent
  | [] => []
  | c :: cs =>
      FsEvent.write c :: FsEvent.progress (roundPct (sent + c.length) total) ::
        ((if 0 < tms ∧ sent + c.length < total then [FsEvent.delayEv] else []) ++
          chunkEvents tms total (sent + c.length) cs)

/-- The writes among a list of events. -/
def writesOf (evs : List FsEvent) : List (List Nat) :=
  evs.filterMap (fun e => match e with | FsEvent.write c => some c | _ => none)

/-- The progress reports among a list of events. -/
def progsOf (evs : List FsEvent) : List Nat :=
  evs.filterMap (fun e => match e with | FsEvent.progress p => some p | _ => none)

/-- The number of inter-chunk delays among a list of events. -/
def delayCount (evs : List FsEvent) : Nat :=
  evs.countP (fun e => e = FsEvent.delayEv)

/-- Cumulative byte totals after each chunk, starting from `acc`. -/
def cumSums (acc : Nat) : List (List Nat) → List Nat
  | [] => []
  | c :: cs => (acc + c.length) :: cumSums (acc + c.length) cs

theorem chunksOf_sample : chunksOf 2 [1, 2, 3, 4, 5] = [[1, 2], [3, 4], [5]] := by
  simp [chunksOf]

theorem fsLoop_sample_nodelay : fsLoop false 2 0 5 0 [1, 2, 3, 4, 5] =
    [FsEvent.write [1, 2], FsEvent.progress 40,
     FsEvent.write [3, 4], FsEvent.progress 80,
     FsEvent.write [5], FsEvent.progress 100] := by
  simp [fsLoop, roundPct]

theorem fsLoop_sample_delay : fsLoop false 2 7 5 0 [1, 2, 3, 4, 5] =
    [FsEvent.write [1, 2], FsEvent.progress 40, FsEvent.delayEv,
     FsEvent.write [3, 4], FsEvent.progress 80, FsEvent.delayEv,
     FsEvent.write [5], FsEvent.progress 100] := by
  simp [fsLoop, roundPct]

/-!  Section: Sequences of `rx` appends (for the merge-policy claims) -/

/-- One `Receive` append with its environment-supplied id/timestamp. -/
structure RxOp where
  data : List Nat
  text : List Char
  fid : String
  ts : Nat
deriving DecidableEq, Repr

/-- A run of `N` consecutive `addLog('rx', ...)` calls under framing mode `br`. -/
def applyRx (br : Bool) (logs : List LogEntry) (ops : List RxOp) : List LogEntry :=
  ops.foldl (fun l op => addLog br LogType.rx op.data op.text op.fid op.ts l) logs

/-- Concatenation of the byte chunks of a sequence of `rx` appends. -/
def joinData (ops : List RxOp) : List Nat :=
  (ops.map RxOp.data).flatten

/-- Concatenation of the text fragments of a sequence of `rx` appends. -/
def joinText (ops : List RxOp) : List Char :=
  (ops.map RxOp.text).flatten

/-!  Section: Spec-side hex failure predicate

The spec of the hex parser reads: "failing with an `InvalidHexFormat`
error on odd-length or non-hex characters after stripping separators"
(for a "whitespace/format-tolerant hex string").  To compare this with
the source, the following pair of definitions follows the spec's words:
separators are whitespace and the usual hex-string delimiters, and the
parse fails when what remains after stripping them has odd length or
contains a non-hex character. -/

/-- Characters a whitespace/format-tolerant hex reader treats as
separators (per the spec's words, not the source). -/
def specSeparator (c : Char) : Bool :=
  c = ' ' || c = '\t' || c = '\n' || c = '\r' || c = ',' || c = ':' || c = '-'

/-- The spec's failure condition for hex parsing (per the spec's words,
not the source): after stripping separators, odd length or a non-hex
character. -/
def specHexFails (s : List Char) : Bool :=
  let stripped := s.filter (fun c => !specSeparator c)
  stripped.length % 2 ≠ 0 || stripped.any (fun c => !isHexDigitCh c)

/-!  Section: Helper lemmas about `addLog` -/

theorem addLog_eq_appendNew (br : Bool) (ty : LogType) (d : List Nat)
    (txt : List Char) (fid : String) (ts : Nat) (prev : List LogEntry)
    (h : ∀ e, prev.getLast? = some e →
      ¬(br = false ∧ ty = LogType.rx ∧ e.type = LogType.rx)) :
    addLog br ty d txt fid ts prev = appendNew prev ⟨fid, ts, ty, d, txt, none⟩ := by
  unfold addLog
  cases hL : prev.getLast? with
  | none => rfl
  | some lastLog => simp only [if_neg (h lastLog hL)]

/-- Every `addLog` call either appends a fresh entry after dropping the
overflow from the front, or rewrites only the last stored entry by
merging the new chunk into it. -/
theorem addLog_cases (br : Bool) (ty : LogType) (d : List Nat)
    (txt : List Char) (fid : String) (ts : Nat) (prev : List LogEntry) :
    (addLog br ty d txt fid ts prev =
       prev.drop (prev.length + 1 - 3000) ++ [⟨fid, ts, ty, d, txt, none⟩]) ∨
    (∃ front e, prev = front ++ [e] ∧ e.type = LogType.rx ∧ br = false ∧
       ty = LogType.rx ∧
       addLog br ty d txt fid ts prev = front ++ [mergeEntry e d txt]) := by
  rcases prev.eq_nil_or_concat' with hnil | ⟨front, e, rfl⟩
  · subst hnil
    left
    rw [addLog_nil]
    rfl
  · by_cases hc : br = false ∧ ty = LogType.rx ∧ e.type = LogType.rx
    · obtain ⟨hbr, hty, he⟩ := hc
      subst hbr
      subst hty
      right
      exact ⟨front, e, rfl, he, rfl, rfl, addLog_concat_merge front e he d txt fid ts⟩
    · left
      rw [addLog_eq_appendNew br ty d txt fid ts (front ++ [e])
            (by intro e' hL
                rw [List.getLast?_concat] at hL
                rw [Option.some_inj] at hL
                exact hL ▸ hc),
          appendNew_eq_drop]

theorem addLog_length_le (br : Bool) (ty : LogType) (d : List Nat)
    (txt : List Char) (fid : String) (ts : Nat) (prev : List LogEntry)
    (h : prev.length ≤ 3000) :
    (addLog br ty d txt fid ts prev).length ≤ 3000 := by
  rcases addLog_cases br ty d txt fid ts prev with heq | ⟨front, e, hpe, -, -, -, heq⟩
  · rw [heq]
    simp only [List.length_append, List.length_drop, List.length_cons, List.length_nil]
    omega
  · rw [heq]
    subst hpe
    simp only [List.length_append, List.length_cons, List.length_nil] at h ⊢
    omega

theorem applyOps_length_le (ops : List LogOp) :
    ∀ init : List LogEntry, init.length ≤ 3000 → (applyOps ops init).length ≤ 3000 := by
  induction ops with
  | nil => intro init h; exact h
  | cons op ops ih =>
      intro init h
      exact ih (applyOp op init)
        (addLog_length_le op.br op.ty op.data op.text op.fid op.ts init h)

theorem mergesInto_getLast {op : LogOp} {prev : List LogEntry}
    (h : ¬ mergesInto op prev) :
    ∀ e, prev.getLast? = some e →
      ¬(op.br = false ∧ op.ty = LogType.rx ∧ e.type = LogType.rx) := by
  intro e hL hconj
  exact h ⟨hconj.1, hconj.2.1, e, hL, hconj.2.2⟩

/-- C1.  For every sequence of append operations on the LogStore (any mix
of kinds, with framing on or off), the number of stored entries after
each operation never exceeds 3000 (the store starts empty, and the bound
is preserved by every single operation); when an append would push the
count past 3000 (the store holds 3000 entries and the operation does not
merge), entries are dropped from the front until exactly 3000 remain
(the overflow is one entry, so exactly the first entry is dropped). -/
theorem c1_store_capacity :
    (∀ ops : List LogOp, (applyOps ops []).length ≤ 3000) ∧
    (∀ (op : LogOp) (prev : List LogEntry), prev.length ≤ 3000 →
       (applyOp op prev).length ≤ 3000 ∧
       (prev.length = 3000 → ¬ mergesInto op prev →
          applyOp op prev = (prev ++ [newEntryOf op]).drop 1 ∧
          (applyOp op prev).length = 3000)) := by
  constructor
  · intro ops
    exact applyOps_length_le ops [] (by simp)
  · intro op prev hle
    refine ⟨addLog_length_le op.br op.ty op.data op.text op.fid op.ts prev hle, ?_⟩
    intro h3000 hnm
    have heq : applyOp op prev = appendNew prev (newEntryOf op) :=
      addLog_eq_appendNew op.br op.ty op.data op.text op.fid op.ts prev
        (mergesInto_getLast hnm)
    rw [heq, appendNew_eq_drop, h3000]
    constructor
    · rw [List.drop_append_of_le_length (by omega)]
    · simp only [List.length_append, List.length_drop, List.length_cons, List.length_nil]
      omega

theorem c1_store_capacity_witness :
    (List.replicate 3000 (⟨"w", 0, LogType.info, [], [], none⟩ : LogEntry)).length ≤ 3000 ∧
    (List.replicate 3000 (⟨"w", 0, LogType.info, [], [], none⟩ : LogEntry)).length = 3000 ∧
    ¬ mergesInto ⟨true, LogType.tx, [], [], "x", 0⟩
        (List.replicate 3000 (⟨"w", 0, LogType.info, [], [], none⟩ : LogEntry)) ∧
    (applyOp ⟨true, LogType.tx, [], [], "x", 0⟩
        (List.replicate 3000 (⟨"w", 0, LogType.info, [], [], none⟩ : LogEntry))).length ≤ 3000 ∧
    applyOp ⟨true, LogType.tx, [], [], "x", 0⟩
        (List.replicate 3000 (⟨"w", 0, LogType.info, [], [], none⟩ : LogEntry)) =
      ((List.replicate 3000 (⟨"w", 0, LogType.info, [], [], none⟩ : LogEntry)) ++
        [newEntryOf ⟨true, LogType.tx, [], [], "x", 0⟩]).drop 1 ∧
    (applyOp ⟨true, LogType.tx, [], [], "x", 0⟩
        (List.replicate 3000 (⟨"w", 0, LogType.info, [], [], none⟩ : LogEntry))).length = 3000 := by
  have hnm : ¬ mergesInto ⟨true, LogType.tx, [], [], "x", 0⟩
      (List.replicate 3000 (⟨"w", 0, LogType.info, [], [], none⟩ : LogEntry)) := by
    rintro ⟨hbr, -, -⟩
    exact Bool.noConfusion hbr
  have hlen : (List.replicate 3000 (⟨"w", 0, LogType.info, [], [], none⟩ : LogEntry)).length
      = 3000 := List.length_replicate 3000 _
  have h := c1_store_capacity.2 ⟨true, LogType.tx, [], [], "x", 0⟩
    (List.replicate 3000 (⟨"w", 0, LogType.info, [], [], none⟩ : LogEntry))
    (le_of_eq hlen)
  exact ⟨le_of_eq hlen, hlen, hnm, h.1, (h.2 hlen hnm).1, (h.2 hlen hnm).2⟩

/-- C9.  Every append operation on the log store modifies at most the
most recent entry: the result is either a front-suffix of the previous
store followed by one freshly created entry (eviction removes entries
only from the front, so the relative order of survivors is preserved and
each survivor is unchanged), or the previous store with only its last
entry extended by the merge, which keeps its id, kind, timestamp (and
`byteCount`) and only concatenates onto its raw bytes and text. -/
theorem c9_append_frame_effect (br : Bool) (ty : LogType) (d : List Nat)
    (txt : List Char) (fid : String) (ts : Nat) (prev : List LogEntry) :
    (∃ k, k ≤ prev.length ∧
       addLog br ty d txt fid ts prev = prev.drop k ++ [⟨fid, ts, ty, d, txt, none⟩]) ∨
    (∃ front e, prev = front ++ [e] ∧
       addLog br ty d txt fid ts prev = front ++ [mergeEntry e d txt] ∧
       (mergeEntry e d txt).id = e.id ∧
       (mergeEntry e d txt).type = e.type ∧
       (mergeEntry e d txt).timestamp = e.timestamp ∧
       (mergeEntry e d txt).byteCount = e.byteCount ∧
       (mergeEntry e d txt).data = e.data ++ d ∧
       (mergeEntry e d txt).text = e.text ++ txt) := by
  rcases addLog_cases br ty d txt fid ts prev with heq | ⟨front, e, hpe, -, -, -, heq⟩
  · left
    exact ⟨prev.length + 1 - 3000, by omega, heq⟩
  · right
    exact ⟨front, e, hpe, heq, rfl, rfl, rfl, rfl, rfl, rfl⟩

/-- C7 (code bug).  The object literal in `addLog` creates entries with
no `byteCount` property and the merge spread preserves that, so every
entry ever stored has `byteCount = none` (JS `undefined`) — never
`some (rawBytes.length)` as the spec's invariant `byteCount ==
rawBytes.length` demands (Terminal nevertheless sums this property for
its byte totals). -/
theorem c7_byteCount_never_set :
    (∀ (br : Bool) (ty : LogType) (d : List Nat) (txt : List Char)
        (fid : String) (ts : Nat) (prev : List LogEntry),
        (∀ e ∈ prev, e.byteCount = none) →
        ∀ e ∈ addLog br ty d txt fid ts prev, e.byteCount = none) ∧
    (addLog false LogType.rx [65] "A".data "a" 0 []).map LogEntry.byteCount = [none] ∧
    ¬ ((addLog false LogType.rx [65] "A".data "a" 0 []).map LogEntry.byteCount =
       (addLog false LogType.rx [65] "A".data "a" 0 []).map
         (fun e => some e.data.length)) := by
  refine ⟨?_, by decide, by decide⟩
  intro br ty d txt fid ts prev hprev e he
  rcases addLog_cases br ty d txt fid ts prev with heq | ⟨front, e0, hpe, -, -, -, heq⟩
  · rw [heq] at he
    rcases List.mem_append.mp he with hmem | hmem
    · exact hprev e (List.mem_of_mem_drop hmem)
    · rw [List.mem_singleton.mp hmem]
  · rw [heq] at he
    rcases List.mem_append.mp he with hmem | hmem
    · exact hprev e (hpe ▸ List.mem_append_left [e0] hmem)
    · rw [List.mem_singleton.mp hmem]
      show e0.byteCount = none
      exact hprev e0 (hpe ▸ List.mem_append_right front (List.mem_singleton.mpr rfl))

theorem c7_byteCount_never_set_witness :
    (∀ e ∈ ([] : List LogEntry), e.byteCount = none) ∧
    (∀ e ∈ addLog false LogType.rx [65] "A".data "a" 0 [], e.byteCount = none) :=
  ⟨by simp, c7_byteCount_never_set.1 false LogType.rx [65] "A".data "a" 0 [] (by simp)⟩

/-!  Section: Sequences of rx appends: merge policy (C2) -/

theorem applyRx_cons (br : Bool) (logs : List LogEntry) (op : RxOp) (ops : List RxOp) :
    applyRx br logs (op :: ops) =
      applyRx br (addLog br LogType.rx op.data op.text op.fid op.ts logs) ops := rfl

theorem joinData_cons (op : RxOp) (ops : List RxOp) :
    joinData (op :: ops) = op.data ++ joinData ops := by
  simp [joinData]

theorem joinText_cons (op : RxOp) (ops : List RxOp) :
    joinText (op :: ops) = op.text ++ joinText ops := by
  simp [joinText]

theorem applyRx_false_merge (ops : List RxOp) :
    ∀ (front : List LogEntry) (e : LogEntry), e.type = LogType.rx →
      applyRx false (front ++ [e]) ops =
        front ++ [{ e with data := e.data ++ joinData ops,
                           text := e.text ++ joinText ops }] := by
  induction ops with
  | nil =>
      intro front e he
      simp [applyRx, joinData, joinText]
  | cons op ops ih =>
      intro front e he
      rw [applyRx_cons, addLog_concat_merge front e he op.data op.text op.fid op.ts,
          ih front (mergeEntry e op.data op.text) he, joinData_cons, joinText_cons]
      simp [mergeEntry, List.append_assoc]

theorem addLog_true_length (ty : LogType) (d : List Nat) (txt : List Char)
    (fid : String) (ts : Nat) (prev : List LogEntry) :
    (addLog true ty d txt fid ts prev).length = min (prev.length + 1) 3000 := by
  rw [addLog_eq_appendNew true ty d txt fid ts prev
        (by rintro e - ⟨h, -, -⟩; exact Bool.noConfusion h),
      appendNew_length]

theorem applyRx_true_length (ops : List RxOp) :
    ∀ logs : List LogEntry, logs.length ≤ 3000 →
      (applyRx true logs ops).length = min (logs.length + ops.length) 3000 := by
  induction ops with
  | nil =>
      intro logs h
      simp only [applyRx, List.foldl_nil, List.length_nil]
      omega
  | cons op ops ih =>
      intro logs h
      rw [applyRx_cons, ih _ (by rw [addLog_true_length]; omega), addLog_true_length]
      simp only [List.length_cons]
      omega

/-- C2 (amended).  With framing OFF, `N` consecutive Receive appends into
a LogStore whose last entry is a Receive entry create no new entry at
all: the entry count is unchanged and the last entry absorbs the chunks,
its raw bytes becoming its previous bytes followed by the concatenation
of the appended chunks and its text its previous text followed by the
concatenation of the appended fragments.  With framing ON, the same `N`
appends produce exactly `N` new entries (as long as the 3000 cap is not
hit). -/
theorem c2_merge_policy :
    (∀ (front : List LogEntry) (e : LogEntry), e.type = LogType.rx →
       ∀ ops : List RxOp,
         applyRx false (front ++ [e]) ops =
           front ++ [{ e with data := e.data ++ joinData ops,
                              text := e.text ++ joinText ops }] ∧
         (applyRx false (front ++ [e]) ops).length = (front ++ [e]).length) ∧
    (∀ (logs : List LogEntry) (ops : List RxOp), logs.length + ops.length ≤ 3000 →
       (applyRx true logs ops).length = logs.length + ops.length) := by
  constructor
  · intro front e he ops
    refine ⟨applyRx_false_merge ops front e he, ?_⟩
    rw [applyRx_false_merge ops front e he]
    simp
  · intro logs ops h
    rw [applyRx_true_length ops logs (by omega)]
    omega

theorem c2_merge_policy_witness :
    (⟨"a", 0, LogType.rx, [1], ['x'], none⟩ : LogEntry).type = LogType.rx ∧
    applyRx false ([] ++ [(⟨"a", 0, LogType.rx, [1], ['x'], none⟩ : LogEntry)])
        [⟨[2], ['y'], "b", 1⟩, ⟨[3], ['z'], "c", 2⟩] =
      [] ++ [{ (⟨"a", 0, LogType.rx, [1], ['x'], none⟩ : LogEntry) with
                 data := [1] ++ joinData [⟨[2], ['y'], "b", 1⟩, ⟨[3], ['z'], "c", 2⟩],
                 text := ['x'] ++ joinText [⟨[2], ['y'], "b", 1⟩, ⟨[3], ['z'], "c", 2⟩] }] ∧
    (applyRx false ([] ++ [(⟨"a", 0, LogType.rx, [1], ['x'], none⟩ : LogEntry)])
        [⟨[2], ['y'], "b", 1⟩, ⟨[3], ['z'], "c", 2⟩]).length =
      ([] ++ [(⟨"a", 0, LogType.rx, [1], ['x'], none⟩ : LogEntry)]).length ∧
    ([] : List LogEntry).length + ([⟨[2], ['y'], "b", 1⟩, ⟨[3], ['z'], "c", 2⟩] : List RxOp).length ≤ 3000 ∧
    (applyRx true [] [⟨[2], ['y'], "b", 1⟩, ⟨[3], ['z'], "c", 2⟩]).length =
      ([] : List LogEntry).length + ([⟨[2], ['y'], "b", 1⟩, ⟨[3], ['z'], "c", 2⟩] : List RxOp).length := by
  have h1 := c2_merge_policy.1 [] (⟨"a", 0, LogType.rx, [1], ['x'], none⟩ : LogEntry)
    (by decide) [⟨[2], ['y'], "b", 1⟩, ⟨[3], ['z'], "c", 2⟩]
  have h2 := c2_merge_policy.2 [] [⟨[2], ['y'], "b", 1⟩, ⟨[3], ['z'], "c", 2⟩] (by decide)
  exact ⟨by decide, h1.1, h1.2, by decide, h2⟩

/-- C2 (counterexample to the claim as stated).  One Receive append with
framing OFF into a store whose last entry is a Receive entry with
non-empty bytes leaves one entry whose raw bytes are the old bytes
followed by the appended chunk — not the concatenation `[2]` of the
appended chunks alone, as the claim states. -/
theorem c2_counterexample :
    (applyRx false [⟨"a", 0, LogType.rx, [1], ['x'], none⟩] [⟨[2], ['y'], "b", 1⟩]).length = 1 ∧
    (applyRx false [⟨"a", 0, LogType.rx, [1], ['x'], none⟩]
        [⟨[2], ['y'], "b", 1⟩]).map LogEntry.data = [[1, 2]] ∧
    joinData [⟨[2], ['y'], "b", 1⟩] = [2] ∧
    ¬ ((applyRx false [⟨"a", 0, LogType.rx, [1], ['x'], none⟩]
        [⟨[2], ['y'], "b", 1⟩]).map LogEntry.data = [joinData [⟨[2], ['y'], "b", 1⟩]]) :=
  ⟨by decide, by decide, by decide, by decide⟩

/-!  Section: Disconnect and the frequency meter (C8) -/

/-- C8 (counterexample to the claim as stated).  Disconnecting a state
whose newline accumulator holds 5 and whose published lines/sec value is
7 leaves both values untouched — not zero as the claim states. -/
theorem c8_counterexample :
    (disconnect "d" 0 ⟨true, true, false, true, false, [], 5, 7, 123⟩).newlineCount = 5 ∧
    (disconnect "d" 0 ⟨true, true, false, true, false, [], 5, 7, 123⟩).lineFrequency = 7 ∧
    ¬ ((disconnect "d" 0 ⟨true, true, false, true, false, [], 5, 7, 123⟩).newlineCount = 0 ∧
       (disconnect "d" 0 ⟨true, true, false, true, false, [], 5, 7, 123⟩).lineFrequency = 0) :=
  ⟨by decide, by decide, by decide⟩

/-- C8 (amended).  The disconnect operation does not touch the frequency
meter: after every disconnect the newline accumulator and the published
lines/sec value are exactly what they were before (disconnect only
stops the loop, closes the port, clears the connected/paused flags and
logs an info entry); the accumulator is zeroed, and the published value
replaced, only by the 1-second frequency timer tick. -/
theorem c8_disconnect_meter :
    (∀ (fid : String) (ts : Nat) (st : AppState),
       (disconnect fid ts st).newlineCount = st.newlineCount ∧
       (disconnect fid ts st).lineFrequency = st.lineFrequency ∧
       (disconnect fid ts st).isConnected = false ∧
       (disconnect fid ts st).isPaused = false ∧
       (disconnect fid ts st).portOpen = false) ∧
    (∀ (now : Nat) (st : AppState), 1000 ≤ now - st.lastUpdate →
       (frequencyTick now st).newlineCount = 0 ∧
       (frequencyTick now st).lineFrequency = st.newlineCount) := by
  constructor
  · intro fid ts st
    refine ⟨?_, rfl, rfl, rfl, rfl⟩
    simp [disconnect, appAddLog]
  · intro now st h
    rw [frequencyTick, if_pos h]
    exact ⟨rfl, rfl⟩

theorem c8_disconnect_meter_witness :
    1000 ≤ 2000 - (⟨true, true, false, true, false, [], 5, 7, 0⟩ : AppState).lastUpdate ∧
    (frequencyTick 2000 ⟨true, true, false, true, false, [], 5, 7, 0⟩).newlineCount = 0 ∧
    (frequencyTick 2000 ⟨true, true, false, true, false, [], 5, 7, 0⟩).lineFrequency =
      (⟨true, true, false, true, false, [], 5, 7, 0⟩ : AppState).newlineCount := by
  have h := c8_disconnect_meter.2 2000 ⟨true, true, false, true, false, [], 5, 7, 0⟩
    (by decide)
  exact ⟨by decide, h.1, h.2⟩

/-!  Section: Connection-status gating of the send paths (C6) -/

theorem addLog_getLast_of_ne_rx (br : Bool) (ty : LogType) (d : List Nat)
    (txt : List Char) (fid : String) (ts : Nat) (prev : List LogEntry)
    (h : ty ≠ LogType.rx) :
    (addLog br ty d txt fid ts prev).getLast? = some ⟨fid, ts, ty, d, txt, none⟩ := by
  rw [addLog_eq_appendNew br ty d txt fid ts prev
        (by rintro e - ⟨-, hty, -⟩; exact h hty),
      appendNew_eq_drop, List.getLast?_concat]

theorem sendData_paused (fid : String) (ts : Nat) (input : List Char)
    (mode : DisplayMode) (st : AppState)
    (hPort : st.portOpen = true) (hP : st.isPaused = true) :
    sendData fid ts input mode st =
      (appAddLog LogType.error [] "发送失败: 串口已暂停".data fid ts st, []) := by
  simp [sendData, hPort, hP]

/-- C6 (counterexample to the claim as stated).  A text send attempted
while disconnected (`port` is null) returns without writing — but also
without appending any log entry (the log stays empty), contradicting the
claim that every blocked send appends an Error entry; the file-send path
behaves the same. -/
theorem c6_counterexample :
    sendData "i" 0 "A".data DisplayMode.text
        ⟨false, false, false, false, false, [], 0, 0, 0⟩ =
      (⟨false, false, false, false, false, [], 0, 0, 0⟩, []) ∧
    (sendData "i" 0 "A".data DisplayMode.text
        ⟨false, false, false, false, false, [], 0, 0, 0⟩).1.logs = [] ∧
    handleFileSendEv false false [1] 1 0 = [] :=
  ⟨by decide, by decide, by simp [handleFileSendEv]⟩

/-- C6 (amended).  A send attempted while paused writes nothing, leaves
the connection state unchanged and appends an Error log entry; a send
attempted while disconnected writes nothing and is a complete no-op — it
appends no log entry at all.  The file-send path is gated the same way:
a closed port yields no events, a paused start yields only the blocked
error entry and no write. -/
theorem c6_send_gating :
    (∀ (fid : String) (ts : Nat) (input : List Char) (mode : DisplayMode) (st : AppState),
       st.portOpen = false → sendData fid ts input mode st = (st, [])) ∧
    (∀ (fid : String) (ts : Nat) (input : List Char) (mode : DisplayMode) (st : AppState),
       st.portOpen = true → st.isPaused = true →
       (sendData fid ts input mode st).2 = [] ∧
       (sendData fid ts input mode st).1.logs =
         addLog st.isAutoLineBreak LogType.error [] "发送失败: 串口已暂停".data fid ts st.logs ∧
       (sendData fid ts input mode st).1.logs.getLast? =
         some ⟨fid, ts, LogType.error, [], "发送失败: 串口已暂停".data, none⟩ ∧
       (sendData fid ts input mode st).1.isConnected = st.isConnected ∧
       (sendData fid ts input mode st).1.isPaused = st.isPaused ∧
       (sendData fid ts input mode st).1.portOpen = st.portOpen) ∧
    (∀ (pausedSnap : Bool) (data : List Nat) (tb tms : Nat),
       handleFileSendEv false pausedSnap data tb tms = []) ∧
    (∀ (data : List Nat) (tb tms : Nat),
       handleFileSendEv true true data tb tms = [FsEvent.logBlocked] ∧
       writesOf [FsEvent.logBlocked] = []) := by
  refine ⟨?_, ?_, ?_, ?_⟩
  · intro fid ts input mode st hPort
    simp [sendData, hPort]
  · intro fid ts input mode st hPort hP
    rw [sendData_paused fid ts input mode st hPort hP]
    refine ⟨rfl, rfl, ?_, rfl, rfl, rfl⟩
    show (addLog st.isAutoLineBreak LogType.error [] "发送失败: 串口已暂停".data fid ts
      st.logs).getLast? = _
    exact addLog_getLast_of_ne_rx _ _ _ _ _ _ _ (by intro h; exact LogType.noConfusion h)
  · intro pausedSnap data tb tms
    simp [handleFileSendEv]
  · intro data tb tms
    exact ⟨by simp [handleFileSendEv], rfl⟩

theorem c6_send_gating_witness :
    (⟨true, true, true, true, false, [], 0, 0, 0⟩ : AppState).portOpen = true ∧
    (⟨true, true, true, true, false, [], 0, 0, 0⟩ : AppState).isPaused = true ∧
    (sendData "i" 0 "A".data DisplayMode.text
        ⟨true, true, true, true, false, [], 0, 0, 0⟩).2 = [] ∧
    (sendData "i" 0 "A".data DisplayMode.text
        ⟨true, true, true, true, false, [], 0, 0, 0⟩).1.logs.getLast? =
      some ⟨"i", 0, LogType.error, [], "发送失败: 串口已暂停".data, none⟩ := by
  have h := c6_send_gating.2.1 "i" 0 "A".data DisplayMode.text
    ⟨true, true, true, true, false, [], 0, 0, 0⟩ rfl rfl
  exact ⟨rfl, rfl, h.1, h.2.2.1⟩

/-!  Section: Hex parse failures in `sendData` (C4) -/

theorem hexToUint8Array_none_iff (s : List Char) :
    hexToUint8Array s = none ↔ (s.countP isHexDigitCh) % 2 = 1 := by
  rw [List.countP_eq_length_filter]
  unfold hexToUint8Array
  rcases Nat.mod_two_eq_zero_or_one ((s.filter isHexDigitCh).length) with h | h
  · rw [if_neg (by omega)]
    simp [h]
  · rw [if_pos (by omega)]
    simp [h]

theorem sendData_hex_fail (fid : String) (ts : Nat) (s : List Char) (st : AppState)
    (hPort : st.portOpen = true) (hP : st.isPaused = false)
    (hfail : hexToUint8Array s = none) :
    sendData fid ts s DisplayMode.hex st =
      (appAddLog LogType.error [] ("发送失败: ".data ++ invalidHexMsg) fid ts st, []) := by
  simp [sendData, hPort, hP, hfail]

/-- C4 (counterexample to the claim as stated).  The input `"GG"`
contains non-hex characters (which are not separators), so by the
claim's failure condition the send should fail with `InvalidHexFormat`
and write nothing; the source instead strips the `G`s, parses the empty
remainder successfully, performs one (empty) write and logs a `tx`
entry. -/
theorem c4_counterexample :
    specHexFails "GG".data = true ∧
    hexToUint8Array "GG".data = some [] ∧
    (sendData "i" 0 "GG".data DisplayMode.hex
        ⟨true, true, false, true, false, [], 0, 0, 0⟩).2 = [[]] ∧
    (sendData "i" 0 "GG".data DisplayMode.hex
        ⟨true, true, false, true, false, [], 0, 0, 0⟩).1.logs.map LogEntry.type =
      [LogType.tx] :=
  ⟨by decide, by decide, by decide, by decide⟩

/-- C4 (amended).  The hex parser fails with `InvalidHexFormat` exactly
when the input contains an odd number of hex-digit characters; non-hex
characters never cause a failure, because the parser strips every
non-hex character before checking.  On failure nothing is written to
the transport, an Error entry is logged and the connection state is
unchanged; in particular `"FF 1"` fails and produces no write. -/
theorem c4_hex_error_handling :
    (∀ s : List Char, hexToUint8Array s = none ↔ (s.countP isHexDigitCh) % 2 = 1) ∧
    (∀ (fid : String) (ts : Nat) (s : List Char) (st : AppState),
       st.portOpen = true → st.isPaused = false → hexToUint8Array s = none →
       (sendData fid ts s DisplayMode.hex st).2 = [] ∧
       (sendData fid ts s DisplayMode.hex st).1.logs.getLast? =
         some ⟨fid, ts, LogType.error, [], "发送失败: ".data ++ invalidHexMsg, none⟩ ∧
       (sendData fid ts s DisplayMode.hex st).1.isConnected = st.isConnected ∧
       (sendData fid ts s DisplayMode.hex st).1.portOpen = st.portOpen ∧
       (sendData fid ts s DisplayMode.hex st).1.isPaused = st.isPaused) ∧
    hexToUint8Array "FF 1".data = none := by
  refine ⟨hexToUint8Array_none_iff, ?_, by decide⟩
  intro fid ts s st hPort hP hfail
  rw [sendData_hex_fail fid ts s st hPort hP hfail]
  refine ⟨rfl, ?_, rfl, rfl, rfl⟩
  show (addLog st.isAutoLineBreak LogType.error [] ("发送失败: ".data ++ invalidHexMsg)
    fid ts st.logs).getLast? = _
  exact addLog_getLast_of_ne_rx _ _ _ _ _ _ _ (by intro h; exact LogType.noConfusion h)

theorem c4_hex_error_handling_witness :
    (⟨true, true, false, true, false, [], 0, 0, 0⟩ : AppState).portOpen = true ∧
    (⟨true, true, false, true, false, [], 0, 0, 0⟩ : AppState).isPaused = false ∧
    hexToUint8Array "FF 1".data = none ∧
    (sendData "i" 0 "FF 1".data DisplayMode.hex
        ⟨true, true, false, true, false, [], 0, 0, 0⟩).2 = [] ∧
    (sendData "i" 0 "FF 1".data DisplayMode.hex
        ⟨true, true, false, true, false, [], 0, 0, 0⟩).1.logs.getLast? =
      some ⟨"i", 0, LogType.error, [], "发送失败: ".data ++ invalidHexMsg, none⟩ := by
  have h := c4_hex_error_handling.2.1 "i" 0 "FF 1".data
    ⟨true, true, false, true, false, [], 0, 0, 0⟩ rfl rfl (by decide)
  exact ⟨rfl, rfl, by decide, h.1, h.2.1⟩

/-!  Section: Hex render/parse round trip (C10) -/

theorem hexDigit_val (n : Nat) (h : n < 16) :
    isHexDigitCh (hexDigitCh n) = true ∧ hexCharVal (hexDigitCh n) = n := by
  interval_cases n <;> exact ⟨by decide, by decide⟩

theorem byteToHexPair_filter (b : Nat) (h : b < 256) :
    (byteToHexPair b).filter isHexDigitCh = byteToHexPair b := by
  have h1 := hexDigit_val (b / 16) (by omega)
  have h2 := hexDigit_val (b % 16) (by omega)
  simp [byteToHexPair, h1.1, h2.1]

theorem pairsToBytes_pair (b : Nat) (h : b < 256) (rest : List Char) :
    pairsToBytes (byteToHexPair b ++ rest) = b :: pairsToBytes rest := by
  have h1 := hexDigit_val (b / 16) (by omega)
  have h2 := hexDigit_val (b % 16) (by omega)
  simp [byteToHexPair, pairsToBytes, h1.2, h2.2, Nat.div_add_mod]

theorem render_filter (a : List Nat) (h : ∀ b ∈ a, b < 256) :
    (uint8ArrayToHex a).filter isHexDigitCh = a.flatMap byteToHexPair := by
  induction a with
  | nil => rfl
  | cons b rest ih =>
      cases rest with
      | nil =>
          simp only [uint8ArrayToHex, List.flatMap_cons, List.flatMap_nil,
            List.append_nil]
          exact byteToHexPair_filter b (h b (by simp))
      | cons c cs =>
          rw [show uint8ArrayToHex (b :: c :: cs) =
                byteToHexPair b ++ ' ' :: uint8ArrayToHex (c :: cs) from rfl,
              List.filter_append, byteToHexPair_filter b (h b (by simp)),
              List.filter_cons_of_neg (by decide),
              ih (fun x hx => h x (by simp [hx]))]
          rfl

theorem flatMap_pairs_length_even (a : List Nat) :
    (a.flatMap byteToHexPair).length % 2 = 0 := by
  induction a with
  | nil => rfl
  | cons b rest ih =>
      rw [List.flatMap_cons, List.length_append]
      have : (byteToHexPair b).length = 2 := rfl
      omega

theorem pairsToBytes_flatMap (a : List Nat) (h : ∀ b ∈ a, b < 256) :
    pairsToBytes (a.flatMap byteToHexPair) = a := by
  induction a with
  | nil => rfl
  | cons b rest ih =>
      rw [List.flatMap_cons, pairsToBytes_pair b (h b (by simp)),
          ih (fun x hx => h x (by simp [hx]))]

/-- C10.  Hex display and hex parsing round-trip: for every byte sequence
`a` (bytes are < 256 in a `Uint8Array`), parsing the rendered hex string
back as hex yields `a` again — in particular the rendered string always
parses without an `InvalidHexFormat` error. -/
theorem c10_hex_roundtrip (a : List Nat) (h : ∀ b ∈ a, b < 256) :
    hexToUint8Array (uint8ArrayToHex a) = some a := by
  unfold hexToUint8Array
  rw [render_filter a h]
  have heven := flatMap_pairs_length_even a
  rw [if_neg (by omega), pairsToBytes_flatMap a h]

theorem c10_hex_roundtrip_witness :
    (∀ b ∈ [0, 26, 255], b < 256) ∧
    hexToUint8Array (uint8ArrayToHex [0, 26, 255]) = some [0, 26, 255] :=
  ⟨by decide, c10_hex_roundtrip [0, 26, 255] (by decide)⟩

/-!  Section: Chunking infrastructure for the file-send loop (C3, C5) -/

theorem chunksOf_nil (tb : Nat) : chunksOf tb [] = [] := by
  simp [chunksOf]

theorem chunksOf_cons (tb : Nat) (htb : 0 < tb) (l : List Nat) (hl : l ≠ []) :
    chunksOf tb l = l.take tb :: chunksOf tb (l.drop tb) := by
  rw [chunksOf]
  rw [dif_neg (by simp [hl]; omega)]

theorem chunksOf_rec (tb : Nat) (htb : 0 < tb)
    (P : List Nat → List (List Nat) → Prop)
    (hnil : P [] [])
    (hcons : ∀ l : List Nat, l ≠ [] → P (l.drop tb) (chunksOf tb (l.drop tb)) →
       P l (l.take tb :: chunksOf tb (l.drop tb))) :
    ∀ l : List Nat, P l (chunksOf tb l) := by
  have main : ∀ (n : Nat) (l : List Nat), l.length ≤ n → P l (chunksOf tb l) := by
    intro n
    induction n with
    | zero =>
        intro l h
        have hl : l = [] := List.eq_nil_of_length_eq_zero (by omega)
        subst hl
        rw [chunksOf_nil]
        exact hnil
    | succ n ih =>
        intro l h
        by_cases hl : l = []
        · subst hl
          rw [chunksOf_nil]
          exact hnil
        · rw [chunksOf_cons tb htb l hl]
          refine hcons l hl (ih (l.drop tb) ?_)
          have : 0 < l.length := List.length_pos.mpr hl
          simp only [List.length_drop]
          omega
  exact fun l => main l.length l le_rfl

theorem chunksOf_flatten (tb : Nat) (htb : 0 < tb) (l : List Nat) :
    (chunksOf tb l).flatten = l := by
  refine chunksOf_rec tb htb (fun l cs => cs.flatten = l) rfl ?_ l
  intro l hl ih
  rw [List.flatten_cons, ih, List.take_append_drop]

theorem chunksOf_eq_nil_iff (tb : Nat) (htb : 0 < tb) (l : List Nat) :
    chunksOf tb l = [] ↔ l = [] := by
  constructor
  · intro h
    by_contra hl
    rw [chunksOf_cons tb htb l hl] at h
    exact List.cons_ne_nil _ _ h
  · intro h
    subst h
    exact chunksOf_nil tb

theorem chunksOf_length_eq (tb : Nat) (htb : 0 < tb) (l : List Nat) :
    (chunksOf tb l).length = (l.length + tb - 1) / tb := by
  refine chunksOf_rec tb htb
    (fun l cs => cs.length = (l.length + tb - 1) / tb) ?_ ?_ l
  · simp only [List.length_nil]
    exact (Nat.div_eq_of_lt (by omega)).symm
  · intro l hl ih
    have hpos : 0 < l.length := List.length_pos.mpr hl
    simp only [List.length_cons, ih, List.length_drop]
    by_cases hle : l.length ≤ tb
    · rw [show l.length - tb = 0 from by omega,
          Nat.div_eq_of_lt (show 0 + tb - 1 < tb by omega),
          show l.length + tb - 1 = (l.length - 1) + tb from by omega,
          Nat.add_div_right _ htb,
          Nat.div_eq_of_lt (show l.length - 1 < tb by omega)]
    · rw [show l.length - tb + tb - 1 = (l.length - tb - 1) + tb from by omega,
          show l.length + tb - 1 = ((l.length - tb - 1) + tb) + tb from by omega,
          show ((l.length - tb - 1) + tb + tb) / tb = ((l.length - tb - 1) + tb) / tb + 1
            from Nat.add_div_right _ htb]

theorem chunksOf_mem_ne_nil (tb : Nat) (htb : 0 < tb) (l : List Nat) :
    ∀ c ∈ chunksOf tb l, c ≠ [] := by
  refine chunksOf_rec tb htb (fun l cs => ∀ c ∈ cs, c ≠ []) (by simp) ?_ l
  intro l hl ih c hc
  rcases List.mem_cons.mp hc with rfl | hmem
  · simp only [ne_eq, List.take_eq_nil_iff]
    push_neg
    exact ⟨by omega, hl⟩
  · exact ih c hmem

theorem chunksOf_dropLast_length (tb : Nat) (htb : 0 < tb) (l : List Nat) :
    ∀ c ∈ (chunksOf tb l).dropLast, c.length = tb := by
  refine chunksOf_rec tb htb
    (fun l cs => ∀ c ∈ cs.dropLast, c.length = tb) (by simp) ?_ l
  intro l hl ih c hc
  by_cases hrest : chunksOf tb (l.drop tb) = []
  · rw [hrest] at hc
    simp at hc
  · rw [List.dropLast_cons_of_ne_nil hrest] at hc
    rcases List.mem_cons.mp hc with rfl | hmem
    · have hdrop : l.drop tb ≠ [] := by
        intro hd
        exact hrest (by rw [hd]; exact chunksOf_nil tb)
      have hlen : tb < l.length := by
        by_contra hle
        exact hdrop (List.drop_eq_nil_of_le (by omega))
      simp only [List.length_take]
      omega
    · exact ih c hmem

theorem fsLoop_nil (pausedSnap : Bool) (tb tms total sent : Nat) :
    fsLoop pausedSnap tb tms total sent [] = [] := by
  rw [fsLoop]
  rw [dif_pos (show ([] : List Nat).isEmpty = true ∨ tb = 0 from Or.inl rfl)]

theorem fsLoop_cons_false (tb tms total sent : Nat) (htb : 0 < tb)
    (rest : List Nat) (hre : rest ≠ []) :
    fsLoop false tb tms total sent rest =
      FsEvent.write (rest.take tb) ::
      FsEvent.progress (roundPct (sent + (rest.take tb).length) total) ::
      ((if 0 < tms ∧ sent + (rest.take tb).length < total
          then [FsEvent.delayEv] else []) ++
        fsLoop false tb tms total (sent + (rest.take tb).length) (rest.drop tb)) := by
  rw [fsLoop]
  rw [dif_neg (by simp [hre]; omega)]
  rw [if_neg (by exact Bool.noConfusion)]

/-- With an unpaused snapshot the loop emits exactly the canonical event
stream of its chunk decomposition. -/
theorem fsLoop_false_eq (tb tms : Nat) (htb : 0 < tb) :
    ∀ (n : Nat) (rest : List Nat) (sent total : Nat), rest.length ≤ n →
      fsLoop false tb tms total sent rest =
        chunkEvents tms total sent (chunksOf tb rest) := by
  intro n
  induction n with
  | zero =>
      intro rest sent total hn
      have hl : rest = [] := List.eq_nil_of_length_eq_zero (by omega)
      subst hl
      rw [fsLoop_nil, chunksOf_nil]
      rfl
  | succ n ih =>
      intro rest sent total hn
      by_cases hre : rest = []
      · subst hre
        rw [fsLoop_nil, chunksOf_nil]
        rfl
      · rw [fsLoop_cons_false tb tms total sent htb rest hre,
            chunksOf_cons tb htb rest hre]
        have hpos : 0 < rest.length := List.length_pos.mpr hre
        rw [ih (rest.drop tb) (sent + (rest.take tb).length) total
              (by simp only [List.length_drop]; omega)]
        rfl

theorem fsLoop_false_eq_chunkEvents (tb tms total sent : Nat) (htb : 0 < tb)
    (rest : List Nat) :
    fsLoop false tb tms total sent rest =
      chunkEvents tms total sent (chunksOf tb rest) :=
  fsLoop_false_eq tb tms htb rest.length rest sent total le_rfl

/-- Every event the chunk loop emits is a write, a progress report or a
delay — never a log entry. -/
theorem chunkEvents_mem (tms total : Nat) :
    ∀ (cs : List (List Nat)) (sent : Nat) (e : FsEvent),
      e ∈ chunkEvents tms total sent cs →
      (∃ c, e = FsEvent.write c) ∨ (∃ p, e = FsEvent.progress p) ∨
        e = FsEvent.delayEv := by
  intro cs
  induction cs with
  | nil => intro sent e he; simp [chunkEvents] at he
  | cons c cs ih =>
      intro sent e he
      simp only [chunkEvents, List.mem_cons, List.mem_append] at he
      rcases he with rfl | he
      · exact Or.inl ⟨c, rfl⟩
      rcases he with rfl | he
      · exact Or.inr (Or.inl ⟨_, rfl⟩)
      rcases he with he | he
      · right; right
        rcases Decidable.em (0 < tms ∧ sent + c.length < total) with hc | hc
        · rw [if_pos hc] at he
          exact List.mem_singleton.mp he
        · rw [if_neg hc] at he
          simp at he
      · exact ih (sent + c.length) e he

theorem chunkEvents_writes (tms total : Nat) :
    ∀ (cs : List (List Nat)) (sent : Nat),
      writesOf (chunkEvents tms total sent cs) = cs := by
  intro cs
  induction cs with
  | nil => intro sent; rfl
  | cons c cs ih =>
      intro sent
      simp only [chunkEvents, writesOf, List.filterMap_cons, List.filterMap_append]
      rw [show List.filterMap
            (fun e => match e with | FsEvent.write c => some c | _ => none)
            (if 0 < tms ∧ sent + c.length < total then [FsEvent.delayEv] else []) = []
          from by split <;> rfl]
      rw [List.nil_append]
      exact congrArg (c :: ·) (ih (sent + c.length))

theorem chunkEvents_progs (tms total : Nat) :
    ∀ (cs : List (List Nat)) (sent : Nat),
      progsOf (chunkEvents tms total sent cs) =
        (cumSums sent cs).map (fun s => roundPct s total) := by
  intro cs
  induction cs with
  | nil => intro sent; rfl
  | cons c cs ih =>
      intro sent
      simp only [chunkEvents, progsOf, List.filterMap_cons, List.filterMap_append,
        cumSums, List.map_cons]
      rw [show List.filterMap
            (fun e => match e with | FsEvent.progress p => some p | _ => none)
            (if 0 < tms ∧ sent + c.length < total then [FsEvent.delayEv] else []) = []
          from by split <;> rfl]
      rw [List.nil_append]
      exact congrArg (_ :: ·) (ih (sent + c.length))

theorem delayCount_chunkEvents_cons (tms total sent : Nat) (c : List Nat)
    (cs : List (List Nat)) :
    delayCount (chunkEvents tms total sent (c :: cs)) =
      (if 0 < tms ∧ sent + c.length < total then 1 else 0) +
        delayCount (chunkEvents tms total (sent + c.length) cs) := by
  rw [show chunkEvents tms total sent (c :: cs) =
        FsEvent.write c :: FsEvent.progress (roundPct (sent + c.length) total) ::
          ((if 0 < tms ∧ sent + c.length < total then [FsEvent.delayEv] else []) ++
            chunkEvents tms total (sent + c.length) cs) from rfl]
  simp only [delayCount, List.countP_cons, List.countP_append]
  split
  · simp
  · simp

theorem chunkEvents_delays (tms total : Nat) :
    ∀ (cs : List (List Nat)) (sent : Nat), (∀ c ∈ cs, c ≠ []) →
      sent + cs.flatten.length = total →
      delayCount (chunkEvents tms total sent cs) =
        if 0 < tms then cs.length - 1 else 0 := by
  intro cs
  induction cs with
  | nil =>
      intro sent hne htot
      simp [delayCount, chunkEvents]
  | cons c cs ih =>
      intro sent hne htot
      rw [delayCount_chunkEvents_cons]
      cases cs with
      | nil =>
          have hc : sent + c.length = total := by
            simp only [List.flatten_cons, List.flatten_nil, List.append_nil,
              List.length_nil] at htot
            omega
          rw [if_neg (by omega)]
          rw [show delayCount (chunkEvents tms total (sent + c.length) []) = 0 from rfl]
          split <;> rfl
      | cons c2 cs2 =>
          have hc2 : c2 ≠ [] := hne c2 (by simp)
          have hlt : sent + c.length < total := by
            simp only [List.flatten_cons, List.length_append] at htot
            have : 0 < c2.length := List.length_pos.mpr hc2
            omega
          have ihv := ih (sent + c.length) (fun x hx => hne x (by simp [hx]))
            (by simp only [List.flatten_cons, List.length_append] at htot ⊢; omega)
          rw [ihv]
          rcases Nat.eq_zero_or_pos tms with h0 | hpos
          · subst h0
            rw [if_neg (by omega), if_neg (by omega), if_neg (by omega)]
          · rw [if_pos ⟨hpos, hlt⟩, if_pos hpos, if_pos hpos]
            simp only [List.length_cons]
            omega

theorem cumSums_getLast (cs : List (List Nat)) :
    ∀ sent : Nat, cs ≠ [] →
      (cumSums sent cs).getLast? = some (sent + cs.flatten.length) := by
  induction cs with
  | nil => intro sent hcs; exact absurd rfl hcs
  | cons c cs ih =>
      intro sent hcs
      cases cs with
      | nil => simp [cumSums]
      | cons c2 cs2 =>
          rw [show cumSums sent (c :: c2 :: cs2) =
                (sent + c.length) :: cumSums (sent + c.length) (c2 :: cs2) from rfl,
              show cumSums (sent + c.length) (c2 :: cs2) =
                (sent + c.length + c2.length) ::
                  cumSums (sent + c.length + c2.length) cs2 from rfl,
              List.getLast?_cons_cons,
              ← show cumSums (sent + c.length) (c2 :: cs2) =
                (sent + c.length + c2.length) ::
                  cumSums (sent + c.length + c2.length) cs2 from rfl,
              ih (sent + c.length) (List.cons_ne_nil c2 cs2)]
          simp only [List.flatten_cons, List.length_append, Option.some_inj]
          omega

theorem roundPct_total (t : Nat) (ht : 0 < t) : roundPct t t = 100 := by
  unfold roundPct
  exact Nat.div_eq_of_lt_le (by omega) (by omega)

theorem fsLoop_tb_zero (pausedSnap : Bool) (tms total sent : Nat) (rest : List Nat) :
    fsLoop pausedSnap 0 tms total sent rest = [] := by
  rw [fsLoop]
  rw [dif_pos (show rest.isEmpty = true ∨ 0 = 0 from Or.inr rfl)]

theorem handleFileSendEv_run (data : List Nat) (tb tms : Nat) :
    handleFileSendEv true false data tb tms =
      FsEvent.logStart :: (fsLoop false tb tms data.length 0 data ++ [FsEvent.logDone]) := by
  simp [handleFileSendEv]

theorem writesOf_wrap (l : List FsEvent) :
    writesOf (FsEvent.logStart :: (l ++ [FsEvent.logDone])) = writesOf l := by
  simp [writesOf, List.filterMap_cons, List.filterMap_append]

theorem progsOf_wrap (l : List FsEvent) :
    progsOf (FsEvent.logStart :: (l ++ [FsEvent.logDone])) = progsOf l := by
  simp [progsOf, List.filterMap_cons, List.filterMap_append]

theorem delayCount_wrap (l : List FsEvent) :
    delayCount (FsEvent.logStart :: (l ++ [FsEvent.logDone])) = delayCount l := by
  simp [delayCount, List.countP_cons, List.countP_append]

/-- C3.  For every non-empty file sent with a positive chunk size, the
unaborted file-send session emits the canonical event stream: it
performs `⌈totalBytes / throttleBytes⌉` writes whose concatenation is
exactly the file, every write but possibly the last is exactly
`throttleBytes` long, after each write the progress
`round(sentBytes/totalBytes*100)` is reported, the final progress report
is 100, and the inter-chunk delay occurs only between chunks (never
after the final one): with `throttleMs > 0` there are exactly
`numChunks - 1` delays, with `throttleMs = 0` none. -/
theorem c3_file_send (data : List Nat) (tb tms : Nat) (htb : 0 < tb)
    (hd : data ≠ []) :
    handleFileSendEv true false data tb tms =
      FsEvent.logStart ::
        (chunkEvents tms data.length 0 (chunksOf tb data) ++ [FsEvent.logDone]) ∧
    writesOf (handleFileSendEv true false data tb tms) = chunksOf tb data ∧
    (writesOf (handleFileSendEv true false data tb tms)).length =
      (data.length + tb - 1) / tb ∧
    (writesOf (handleFileSendEv true false data tb tms)).flatten = data ∧
    (∀ c ∈ (writesOf (handleFileSendEv true false data tb tms)).dropLast,
       c.length = tb) ∧
    progsOf (handleFileSendEv true false data tb tms) =
      (cumSums 0 (chunksOf tb data)).map (fun s => roundPct s data.length) ∧
    (progsOf (handleFileSendEv true false data tb tms)).getLast? = some 100 ∧
    delayCount (handleFileSendEv true false data tb tms) =
      (if 0 < tms then (chunksOf tb data).length - 1 else 0) := by
  have hrun : handleFileSendEv true false data tb tms =
      FsEvent.logStart ::
        (chunkEvents tms data.length 0 (chunksOf tb data) ++ [FsEvent.logDone]) := by
    rw [handleFileSendEv_run data tb tms,
        fsLoop_false_eq_chunkEvents tb tms data.length 0 htb data]
  have hw : writesOf (handleFileSendEv true false data tb tms) = chunksOf tb data := by
    rw [hrun, writesOf_wrap, chunkEvents_writes]
  refine ⟨hrun, hw, ?_, ?_, ?_, ?_, ?_, ?_⟩
  · rw [hw, chunksOf_length_eq tb htb]
  · rw [hw, chunksOf_flatten tb htb]
  · rw [hw]
    exact chunksOf_dropLast_length tb htb data
  · rw [hrun, progsOf_wrap, chunkEvents_progs]
  · rw [hrun, progsOf_wrap, chunkEvents_progs, List.getLast?_map,
        cumSums_getLast (chunksOf tb data) 0
          (by rw [ne_eq, chunksOf_eq_nil_iff tb htb]; exact hd),
        chunksOf_flatten tb htb]
    simp only [Option.map_some', Nat.zero_add]
    rw [roundPct_total data.length (List.length_pos.mpr hd)]
  · rw [hrun, delayCount_wrap,
        chunkEvents_delays tms data.length (chunksOf tb data) 0
          (chunksOf_mem_ne_nil tb htb data)
          (by rw [chunksOf_flatten tb htb]; omega)]

theorem c3_file_send_witness :
    (0 : Nat) < 100 ∧ List.replicate 1000 (0 : Nat) ≠ [] ∧
    writesOf (handleFileSendEv true false (List.replicate 1000 (0 : Nat)) 100 0) =
      chunksOf 100 (List.replicate 1000 (0 : Nat)) ∧
    (writesOf (handleFileSendEv true false (List.replicate 1000 (0 : Nat)) 100 0)).length =
      ((List.replicate 1000 (0 : Nat)).length + 100 - 1) / 100 ∧
    ((List.replicate 1000 (0 : Nat)).length + 100 - 1) / 100 = 10 ∧
    (writesOf (handleFileSendEv true false (List.replicate 1000 (0 : Nat)) 100 0)).flatten =
      List.replicate 1000 (0 : Nat) ∧
    (∀ c ∈ (writesOf (handleFileSendEv true false
        (List.replicate 1000 (0 : Nat)) 100 0)).dropLast, c.length = 100) ∧
    (progsOf (handleFileSendEv true false (List.replicate 1000 (0 : Nat)) 100 0)).getLast? =
      some 100 ∧
    delayCount (handleFileSendEv true false (List.replicate 1000 (0 : Nat)) 100 0) = 0 := by
  have hne : List.replicate 1000 (0 : Nat) ≠ [] := by
    intro hcon
    have hlen := congrArg List.length hcon
    rw [List.length_replicate] at hlen
    exact absurd hlen (by decide)
  have h := c3_file_send (List.replicate 1000 (0 : Nat)) 100 0 (by decide) hne
  refine ⟨by decide, hne, h.2.1, h.2.2.1, ?_, h.2.2.2.1, h.2.2.2.2.1,
    h.2.2.2.2.2.2.1, ?_⟩
  · rw [List.length_replicate]
  · rw [h.2.2.2.2.2.2.2, if_neg (by omega)]

/-- C5 (code bug).  The running file-send session never observes a pause
request: the in-loop check reads the closure-captured `isPaused` of the
render in which the invocation started, which is necessarily `false`
(a paused start is rejected by the gate before the loop), so the abort
log entry is unreachable, every chunk of the file is written and the
completion entry is always emitted — pausing mid-send changes nothing. -/
theorem c5_pause_never_aborts :
    (∀ (portOpen pausedSnap : Bool) (data : List Nat) (tb tms : Nat),
       FsEvent.logAbort ∉ handleFileSendEv portOpen pausedSnap data tb tms) ∧
    (∀ (data : List Nat) (tb tms : Nat), 0 < tb → data ≠ [] →
       writesOf (handleFileSendEv true false data tb tms) = chunksOf tb data ∧
       (handleFileSendEv true false data tb tms).getLast? = some FsEvent.logDone ∧
       List.countP (fun e => e = FsEvent.logDone)
         (handleFileSendEv true false data tb tms) = 1 ∧
       List.countP (fun e => e = FsEvent.logAbort)
         (handleFileSendEv true false data tb tms) = 0) ∧
    (∀ (data : List Nat) (tb tms : Nat),
       handleFileSendEv true true data tb tms = [FsEvent.logBlocked]) := by
  have habort : ∀ (tb tms total sent : Nat) (rest : List Nat),
      FsEvent.logAbort ∉ fsLoop false tb tms total sent rest := by
    intro tb tms total sent rest hmem
    rcases Nat.eq_zero_or_pos tb with h0 | hpos
    · subst h0
      rw [fsLoop_tb_zero] at hmem
      exact List.not_mem_nil _ hmem
    · rw [fsLoop_false_eq_chunkEvents tb tms total sent hpos rest] at hmem
      rcases chunkEvents_mem tms total (chunksOf tb rest) sent _ hmem with
        ⟨c, hc⟩ | ⟨p, hp⟩ | hd
      · exact FsEvent.noConfusion hc
      · exact FsEvent.noConfusion hp
      · exact FsEvent.noConfusion hd
  refine ⟨?_, ?_, ?_⟩
  · intro portOpen pausedSnap data tb tms hmem
    cases portOpen with
    | false =>
        simp only [handleFileSendEv, if_pos rfl] at hmem
        exact List.not_mem_nil _ hmem
    | true =>
        cases pausedSnap with
        | true =>
            simp [handleFileSendEv] at hmem
        | false =>
            rw [handleFileSendEv_run data tb tms] at hmem
            rcases List.mem_cons.mp hmem with h | h
            · exact FsEvent.noConfusion h
            rcases List.mem_append.mp h with h | h
            · exact habort tb tms data.length 0 data h
            · exact FsEvent.noConfusion (List.mem_singleton.mp h)
  · intro data tb tms htb hd
    have hrun : handleFileSendEv true false data tb tms =
        FsEvent.logStart ::
          (chunkEvents tms data.length 0 (chunksOf tb data) ++ [FsEvent.logDone]) := by
      rw [handleFileSendEv_run data tb tms,
          fsLoop_false_eq_chunkEvents tb tms data.length 0 htb data]
    have hce0 : ∀ (p : FsEvent → Prop) [DecidablePred p],
        ((∀ c, ¬ p (FsEvent.write c)) → (∀ q, ¬ p (FsEvent.progress q)) →
          ¬ p FsEvent.delayEv →
        List.countP (fun e => decide (p e))
          (chunkEvents tms data.length 0 (chunksOf tb data)) = 0) := by
      intro p hp hw1 hp1 hdel
      rw [List.countP_eq_zero]
      intro e he
      rcases chunkEvents_mem tms data.length (chunksOf tb data) 0 e he with
        ⟨c, rfl⟩ | ⟨q, rfl⟩ | rfl
      · simpa using hw1 c
      · simpa using hp1 q
      · simpa using hdel
    refine ⟨?_, ?_, ?_, ?_⟩
    · rw [hrun, writesOf_wrap, chunkEvents_writes]
    · rw [hrun, show FsEvent.logStart ::
          (chunkEvents tms data.length 0 (chunksOf tb data) ++ [FsEvent.logDone]) =
          (FsEvent.logStart ::
            chunkEvents tms data.length 0 (chunksOf tb data)) ++ [FsEvent.logDone]
          from rfl, List.getLast?_concat]
    · rw [hrun]
      simp only [List.countP_cons, List.countP_append]
      rw [hce0 (fun e => e = FsEvent.logDone) (by simp) (by simp) (by simp)]
      simp
    · rw [hrun]
      simp only [List.countP_cons, List.countP_append]
      rw [hce0 (fun e => e = FsEvent.logAbort) (by simp) (by simp) (by simp)]
      simp
  · intro data tb tms
    simp [handleFileSendEv]

theorem c5_pause_never_aborts_witness :
    (0 : Nat) < 100 ∧ List.replicate 1000 (0 : Nat) ≠ [] ∧
    writesOf (handleFileSendEv true false (List.replicate 1000 (0 : Nat)) 100 0) =
      chunksOf 100 (List.replicate 1000 (0 : Nat)) ∧
    (handleFileSendEv true false (List.replicate 1000 (0 : Nat)) 100 0).getLast? =
      some FsEvent.logDone ∧
    List.countP (fun e => e = FsEvent.logDone)
      (handleFileSendEv true false (List.replicate 1000 (0 : Nat)) 100 0) = 1 ∧
    List.countP (fun e => e = FsEvent.logAbort)
      (handleFileSendEv true false (List.replicate 1000 (0 : Nat)) 100 0) = 0 := by
  have hne : List.replicate 1000 (0 : Nat) ≠ [] := by
    intro hcon
    have hlen := congrArg List.length hcon
    rw [List.length_replicate] at hlen
    exact absurd hlen (by decide)
  have h := c5_pause_never_aborts.2.1 (List.replicate 1000 (0 : Nat)) 100 0
    (by decide) hne
  exact ⟨by decide, hne, h.1, h.2.1, h.2.2.1, h.2.2.2⟩
